import Mathlib

/-!
Verification of the ttauri GPU device/pipeline lifecycle core.

This file gives a shallow embedding of:
  * the Queue Capability Negotiator (`Device::findBestQueueFamilyIndices`,
    `src/TTauri Shared/Toolkit/GUI/Device.cpp`),
  * the Device Selector (`Device::score` in the same file, and
    `Instance_base::findBestDeviceForWindow`,
    `src/TTauri/GUI/src/Instance_base.cpp`),
  * the Pipeline Resource Manager (`Pipeline_vulkan`,
    `src/TTauri/GUI/Pipeline_vulkan.cpp`),
and proves the spec's claims about them.
-/

namespace TTauriProof

/-! ## QueueCapabilities

Modelled from the spec: the `QueueCapabilities` class itself is declared in a
header that is not part of the available sources (only `Device.cpp`, which uses
it, is).  Per spec section 3 it is "a small set of boolean/bitmask flags
{graphics, present, compute} plus derived predicates (handles-everything,
handles-graphics-and-present, union/difference operators)".  The member
functions used by `Device.cpp` are modelled below from those words and from
their use sites. -/

structure QueueCapabilities where
  handlesGraphics : Bool
  handlesPresent : Bool
  handlesCompute : Bool
deriving DecidableEq, Repr, Fintype

namespace QueueCapabilities

def handlesEverything (c : QueueCapabilities) : Bool :=
  c.handlesGraphics && c.handlesPresent && c.handlesCompute

def handlesGraphicsAndPresent (c : QueueCapabilities) : Bool :=
  c.handlesGraphics && c.handlesPresent

def handlesGraphicsAndCompute (c : QueueCapabilities) : Bool :=
  c.handlesGraphics && c.handlesCompute

/-- Modelled from the spec: `total.handlesAllOff(c)` holds when `total`
handles every capability of `c`, i.e. `c` is a subset of `total`; the
negotiator "accepts a family only if its capability set is not a subset of
the capabilities already accumulated". -/
def handlesAllOff (total c : QueueCapabilities) : Bool :=
  (!c.handlesGraphics || total.handlesGraphics) &&
  (!c.handlesPresent || total.handlesPresent) &&
  (!c.handlesCompute || total.handlesCompute)

/-- Modelled from the spec: set union (`operator|=` in the source). -/
def union (a b : QueueCapabilities) : QueueCapabilities :=
  ⟨a.handlesGraphics || b.handlesGraphics,
   a.handlesPresent || b.handlesPresent,
   a.handlesCompute || b.handlesCompute⟩

/-- Modelled from the spec: set difference (`operator-` in the source);
`findBestQueueFamilyIndices` records a family's contribution as
`capabilities - totalCapabilities`. -/
def sub (a b : QueueCapabilities) : QueueCapabilities :=
  ⟨a.handlesGraphics && !b.handlesGraphics,
   a.handlesPresent && !b.handlesPresent,
   a.handlesCompute && !b.handlesCompute⟩

/-- Modelled from the spec: the per-family score used as the sort key
(`QueueCapabilities::score()` in the missing header).  The weights are those
computed (and logged) inside `Device::findBestQueueFamilyIndices`, matching
the spec: "score rewards families that cover all three roles highest, then
graphics+present, then each individual role". -/
def score (c : QueueCapabilities) : Nat :=
  (if c.handlesEverything then 10 else 0) +
  (if c.handlesGraphicsAndPresent then 5 else 0) +
  (if c.handlesGraphics then 1 else 0) +
  (if c.handlesPresent then 1 else 0) +
  (if c.handlesCompute then 1 else 0)

end QueueCapabilities

def emptyCaps : QueueCapabilities := ⟨false, false, false⟩

/-! ## Queue Capability Negotiator (`Device::findBestQueueFamilyIndices`) -/

/-- One hardware queue family as enumerated by Vulkan: the two queue flags the
code inspects and the per-surface present-support bit. -/
structure QueueFamilyProperties where
  graphicsFlag : Bool
  computeFlag : Bool
  presentSupport : Bool
deriving DecidableEq, Repr

/-- The capability set derived from one family's flags, as built in the
enumeration loop of `Device::findBestQueueFamilyIndices`. -/
def capabilitiesOf (f : QueueFamilyProperties) : QueueCapabilities :=
  ⟨f.graphicsFlag, f.presentSupport, f.computeFlag⟩

/-- The enumeration loop of `Device::findBestQueueFamilyIndices`: pair every
family with its enumeration index (the loop counter `index`) and its
capability set. -/
def scoreQueueFamiliesFrom : List QueueFamilyProperties → Nat →
    List (Nat × QueueCapabilities)
  | [], _ => []
  | f :: rest, index => (index, capabilitiesOf f) :: scoreQueueFamiliesFrom rest (index + 1)

def scoredQueueFamilies (qfs : List QueueFamilyProperties) :
    List (Nat × QueueCapabilities) :=
  scoreQueueFamiliesFrom qfs 0

/-- The comparator `scoreIsGreater` of `Device.cpp` induces this weak order:
`a` may precede `b` exactly when `b`'s score does not exceed `a`'s. -/
def qfLE (a b : Nat × QueueCapabilities) : Prop := b.2.score ≤ a.2.score

instance : DecidableRel qfLE := fun a b => Nat.decLe _ _

instance : IsTotal (Nat × QueueCapabilities) qfLE := ⟨fun a b => Nat.le_total _ _⟩

instance : IsTrans (Nat × QueueCapabilities) qfLE :=
  ⟨fun _ _ _ h1 h2 => Nat.le_trans h2 h1⟩

/-- The contract of `std::sort` with comparator `scoreIsGreater`: the output
is some permutation of the input that is ordered by score descending.  The
C++ standard does not specify which permutation (`std::sort` is not stable),
so the source determines the result only up to this relation. -/
def IsSortOf (l out : List (Nat × QueueCapabilities)) : Prop :=
  out.Perm l ∧ out.Pairwise qfLE

/-- One permutation satisfying the `std::sort` contract, used to make the
embedded negotiator executable (insertion sort by score descending). -/
def sortQueueFamilies (l : List (Nat × QueueCapabilities)) :
    List (Nat × QueueCapabilities) :=
  l.insertionSort qfLE

/-- The greedy pass of `Device::findBestQueueFamilyIndices`: walk the sorted
list, accept a family only if it is not a subset of the accumulated total,
record its contribution as the difference from the total, and update the
total by union. -/
def greedyAccumulate : List (Nat × QueueCapabilities) → QueueCapabilities →
    List (Nat × QueueCapabilities)
  | [], _ => []
  | (i, c) :: rest, total =>
    if total.handlesAllOff c then
      greedyAccumulate rest total
    else
      (i, c.sub total) :: greedyAccumulate rest (total.union c)

/-- `Device::findBestQueueFamilyIndices`, with `std::sort` concretized to the
insertion-sort witness of its contract. -/
def findBestQueueFamilyIndices (qfs : List QueueFamilyProperties) :
    List (Nat × QueueCapabilities) :=
  greedyAccumulate (sortQueueFamilies (scoredQueueFamilies qfs)) emptyCaps

/-- Union of the capability sets of a list of (index, capability) pairs, as
accumulated by the `|=` loop in `Device::score`. -/
def capUnion (l : List (Nat × QueueCapabilities)) : QueueCapabilities :=
  l.foldr (fun p acc => p.2.union acc) emptyCaps

/-- The capability set of the family at position `i` of the input. -/
def famCaps (qfs : List QueueFamilyProperties) (i : Nat) : QueueCapabilities :=
  capabilitiesOf (qfs.getD i ⟨false, false, false⟩)

/-- `s` is a set of positions into the input family list. -/
def validSubset (qfs : List QueueFamilyProperties) (s : List Nat) : Prop :=
  s.Nodup ∧ ∀ i ∈ s, i < qfs.length

/-- The families at positions `s` together cover all three roles. -/
def coversIdxList (qfs : List QueueFamilyProperties) (s : List Nat) : Prop :=
  (∃ i ∈ s, (famCaps qfs i).handlesGraphics = true) ∧
  (∃ i ∈ s, (famCaps qfs i).handlesPresent = true) ∧
  (∃ i ∈ s, (famCaps qfs i).handlesCompute = true)

/-! ### Finite facts about capability sets (proved by case exhaustion) -/

/-- Number of the three roles that `c` does not yet handle. -/
def missingCount (c : QueueCapabilities) : Nat :=
  (if c.handlesGraphics then 0 else 1) +
  (if c.handlesPresent then 0 else 1) +
  (if c.handlesCompute then 0 else 1)

theorem caps_union_empty : ∀ c : QueueCapabilities, emptyCaps.union c = c := by decide

theorem caps_left_comm :
    ∀ a b x : QueueCapabilities, a.union (b.union x) = b.union (a.union x) := by decide

theorem caps_skip :
    ∀ c t x : QueueCapabilities,
      t.handlesAllOff c = true → (c.union x).union t = x.union t := by decide

theorem caps_shuffle1 :
    ∀ c t x : QueueCapabilities,
      ((c.sub t).union x).union t = x.union (t.union c) := by decide

theorem caps_shuffle2 :
    ∀ c t y : QueueCapabilities,
      y.union (t.union c) = (c.union y).union t := by decide

theorem caps_union_empty_right : ∀ c : QueueCapabilities, c.union emptyCaps = c := by decide

theorem caps_missing_lt :
    ∀ t c : QueueCapabilities,
      t.handlesAllOff c = false → missingCount (t.union c) < missingCount t := by decide

theorem caps_allOff_of_full :
    ∀ t c : QueueCapabilities,
      t.handlesEverything = true → t.handlesAllOff c = true := by decide

theorem caps_sub_subset :
    ∀ c t : QueueCapabilities, c.handlesAllOff (c.sub t) = true := by decide

theorem caps_score_full :
    ∀ c : QueueCapabilities, c.handlesEverything = true → c.score = 18 := by decide

theorem caps_full_of_score_ge :
    ∀ c : QueueCapabilities, 18 ≤ c.score → c.handlesEverything = true := by decide

theorem caps_empty_of_score_le :
    ∀ c : QueueCapabilities, c.score ≤ 0 → c = emptyCaps := by decide

theorem caps_allOff_empty_true :
    ∀ c : QueueCapabilities,
      emptyCaps.handlesAllOff c = true → c = emptyCaps := by decide

theorem caps_allOff_empty_false :
    ∀ c : QueueCapabilities,
      c.handlesEverything = true → emptyCaps.handlesAllOff c = false := by decide

/-- The crux of the greedy pass's optimality: if some two capability sets of
score at most `total.score` jointly cover all roles, then any set that is not
contained in `total` completes `total` to full coverage.  This is a finite
check over four capability sets. -/
theorem caps_crux :
    ∀ total c2 a b : QueueCapabilities,
      a.score ≤ total.score → b.score ≤ total.score → c2.score ≤ total.score →
      (a.union b).handlesEverything = true →
      total.handlesAllOff c2 = false →
      (total.union c2).handlesEverything = true := by decide

theorem caps_roles_full :
    ∀ c : QueueCapabilities,
      c.handlesGraphics = true → c.handlesPresent = true → c.handlesCompute = true →
      c.handlesEverything = true := by decide

theorem caps_union_full_of_roles :
    ∀ a b : QueueCapabilities,
      (a.handlesGraphics = true ∨ b.handlesGraphics = true) →
      (a.handlesPresent = true ∨ b.handlesPresent = true) →
      (a.handlesCompute = true ∨ b.handlesCompute = true) →
      (a.union b).handlesEverything = true := by decide

theorem caps_role_mono_graphics :
    ∀ c d : QueueCapabilities,
      c.handlesAllOff d = true → d.handlesGraphics = true → c.handlesGraphics = true := by
  decide

theorem caps_role_mono_present :
    ∀ c d : QueueCapabilities,
      c.handlesAllOff d = true → d.handlesPresent = true → c.handlesPresent = true := by
  decide

theorem caps_role_mono_compute :
    ∀ c d : QueueCapabilities,
      c.handlesAllOff d = true → d.handlesCompute = true → c.handlesCompute = true := by
  decide

theorem caps_full_union_roles :
    ∀ c : QueueCapabilities, c.handlesEverything = true →
      c.handlesGraphics = true ∧ c.handlesPresent = true ∧ c.handlesCompute = true := by
  decide

/-! ### Properties of the greedy pass -/

theorem capUnion_cons (p : Nat × QueueCapabilities) (l : List (Nat × QueueCapabilities)) :
    capUnion (p :: l) = p.2.union (capUnion l) := rfl

theorem capUnion_perm {l1 l2 : List (Nat × QueueCapabilities)} (h : l1.Perm l2) :
    capUnion l1 = capUnion l2 := by
  induction h with
  | nil => rfl
  | cons x _ ih => rw [capUnion_cons, capUnion_cons, ih]
  | swap x y l => rw [capUnion_cons, capUnion_cons, capUnion_cons, capUnion_cons,
      caps_left_comm]
  | trans _ _ ih1 ih2 => rw [ih1, ih2]

/-- The union of the recorded contributions of the greedy pass, joined with
the starting total, equals the union of all input capabilities joined with
the starting total. -/
theorem greedy_union :
    ∀ (l : List (Nat × QueueCapabilities)) (total : QueueCapabilities),
      (capUnion (greedyAccumulate l total)).union total = (capUnion l).union total
  | [], _ => rfl
  | (i, c) :: rest, total => by
    show (capUnion (greedyAccumulate ((i, c) :: rest) total)).union total
        = (capUnion ((i, c) :: rest)).union total
    by_cases h : total.handlesAllOff c = true
    · rw [greedyAccumulate, if_pos h, greedy_union rest total, capUnion_cons,
        caps_skip c total (capUnion rest) h]
    · rw [greedyAccumulate, if_neg h, capUnion_cons, capUnion_cons, caps_shuffle1,
        greedy_union rest (total.union c), caps_shuffle2]

/-- The greedy pass accepts at most as many families as there are roles
missing from the starting total. -/
theorem greedy_length_le_missing :
    ∀ (l : List (Nat × QueueCapabilities)) (total : QueueCapabilities),
      (greedyAccumulate l total).length ≤ missingCount total
  | [], _ => Nat.zero_le _
  | (i, c) :: rest, total => by
    by_cases h : total.handlesAllOff c = true
    · rw [greedyAccumulate, if_pos h]
      exact greedy_length_le_missing rest total
    · rw [greedyAccumulate, if_neg h]
      have h1 := greedy_length_le_missing rest (total.union c)
      have h2 := caps_missing_lt total c (by simpa using h)
      simpa [List.length_cons] using Nat.lt_of_le_of_lt h1 h2

/-- Once the accumulated total covers everything, no further family is
accepted. -/
theorem greedy_full_nil :
    ∀ (l : List (Nat × QueueCapabilities)) (total : QueueCapabilities),
      total.handlesEverything = true → greedyAccumulate l total = []
  | [], _, _ => rfl
  | (i, c) :: rest, total, h => by
    rw [greedyAccumulate, if_pos (caps_allOff_of_full total c h)]
    exact greedy_full_nil rest total h

/-- Every pair the greedy pass emits carries the index of an input pair whose
capability set contains the recorded contribution. -/
theorem greedy_mem :
    ∀ (l : List (Nat × QueueCapabilities)) (total : QueueCapabilities)
      (p : Nat × QueueCapabilities), p ∈ greedyAccumulate l total →
      ∃ c, (p.1, c) ∈ l ∧ c.handlesAllOff p.2 = true
  | [], _, p, hp => by simp [greedyAccumulate] at hp
  | (i, c) :: rest, total, p, hp => by
    by_cases h : total.handlesAllOff c = true
    · rw [greedyAccumulate, if_pos h] at hp
      obtain ⟨d, hd, hsub⟩ := greedy_mem rest total p hp
      exact ⟨d, List.mem_cons_of_mem _ hd, hsub⟩
    · rw [greedyAccumulate, if_neg h] at hp
      rcases List.mem_cons.mp hp with heq | htail
      · refine ⟨c, ?_, ?_⟩
        · rw [heq]
          exact List.mem_cons_self _ _
        · rw [heq]
          exact caps_sub_subset c total
      · obtain ⟨d, hd, hsub⟩ := greedy_mem rest (total.union c) p htail
        exact ⟨d, List.mem_cons_of_mem _ hd, hsub⟩

/-- The indices the greedy pass emits form a sublist of the input indices. -/
theorem greedy_idx_sublist :
    ∀ (l : List (Nat × QueueCapabilities)) (total : QueueCapabilities),
      ((greedyAccumulate l total).map Prod.fst).Sublist (l.map Prod.fst)
  | [], _ => List.Sublist.refl _
  | (i, c) :: rest, total => by
    by_cases h : total.handlesAllOff c = true
    · rw [greedyAccumulate, if_pos h]
      exact (greedy_idx_sublist rest total).cons _
    · rw [greedyAccumulate, if_neg h, List.map_cons, List.map_cons]
      exact (greedy_idx_sublist rest (total.union c)).cons₂ _

/-- If some input family already covers everything, the greedy pass over any
score-descending ordering accepts exactly one family. -/
theorem greedy_one_of_full :
    ∀ (l : List (Nat × QueueCapabilities)), l.Pairwise qfLE →
      (∃ p ∈ l, p.2.handlesEverything = true) →
      (greedyAccumulate l emptyCaps).length = 1 := by
  intro l hp hex
  obtain ⟨p, hpmem, hfull⟩ := hex
  cases l with
  | nil => simp at hpmem
  | cons hd t =>
    obtain ⟨i, c⟩ := hd
    have hfullc : c.handlesEverything = true := by
      rcases List.mem_cons.mp hpmem with heq | ht
      · rw [heq] at hfull
        exact hfull
      · have hle : p.2.score ≤ c.score := (List.pairwise_cons.mp hp).1 p ht
        have h18 : (18 : Nat) ≤ c.score := by
          rw [caps_score_full p.2 hfull] at hle
          exact hle
        exact caps_full_of_score_ge c h18
    rw [greedyAccumulate, if_neg (by rw [caps_allOff_empty_false c hfullc]; simp),
      List.length_cons]
    have hu : emptyCaps.union c = c := caps_union_empty c
    rw [hu, greedy_full_nil t c hfullc]
    rfl

/-- Auxiliary step for the pair case: once the accumulated total dominates the
scores of everything still to come and a covering pair of such scores exists,
the greedy pass accepts at most one further family. -/
theorem greedy_le_one_aux :
    ∀ (t : List (Nat × QueueCapabilities)) (total a b : QueueCapabilities),
      (∀ x ∈ t, x.2.score ≤ total.score) →
      a.score ≤ total.score → b.score ≤ total.score →
      (a.union b).handlesEverything = true →
      (greedyAccumulate t total).length ≤ 1
  | [], _, _, _, _, _, _, _ => Nat.zero_le _
  | (i, c) :: t', total, a, b, hsc, ha, hb, hab => by
    by_cases h : total.handlesAllOff c = true
    · rw [greedyAccumulate, if_pos h]
      exact greedy_le_one_aux t' total a b
        (fun x hx => hsc x (List.mem_cons_of_mem _ hx)) ha hb hab
    · rw [greedyAccumulate, if_neg h]
      have hc : c.score ≤ total.score := hsc (i, c) (List.mem_cons_self _ _)
      have hfull := caps_crux total c a b ha hb hc hab (by simpa using h)
      rw [greedy_full_nil t' _ hfull]
      simp

/-- If some two input families jointly cover everything, the greedy pass over
any score-descending ordering accepts at most two families. -/
theorem greedy_le_two_of_pair :
    ∀ (l : List (Nat × QueueCapabilities)), l.Pairwise qfLE →
      (∃ p ∈ l, ∃ q ∈ l, (p.2.union q.2).handlesEverything = true) →
      (greedyAccumulate l emptyCaps).length ≤ 2 := by
  intro l hp hex
  obtain ⟨p, hpmem, q, hqmem, hpq⟩ := hex
  cases l with
  | nil => simp at hpmem
  | cons hd t =>
    obtain ⟨i, c⟩ := hd
    have hsc : ∀ x ∈ (i, c) :: t, x.2.score ≤ c.score := by
      intro x hx
      rcases List.mem_cons.mp hx with heq | ht
      · rw [heq]
      · exact (List.pairwise_cons.mp hp).1 x ht
    by_cases h : QueueCapabilities.handlesAllOff emptyCaps c = true
    · have hc0 : c = emptyCaps := caps_allOff_empty_true c h
      have hcs : c.score = 0 := by rw [hc0]; rfl
      have hp0 : p.2 = emptyCaps := by
        refine caps_empty_of_score_le p.2 ?_
        rw [← hcs]
        exact hsc p hpmem
      have hq0 : q.2 = emptyCaps := by
        refine caps_empty_of_score_le q.2 ?_
        rw [← hcs]
        exact hsc q hqmem
      rw [hp0, hq0] at hpq
      exact absurd hpq (by decide)
    · rw [greedyAccumulate, if_neg h, List.length_cons]
      have hone : (greedyAccumulate t (emptyCaps.union c)).length ≤ 1 := by
        rw [caps_union_empty]
        exact greedy_le_one_aux t c p.2 q.2
          (fun x hx => hsc x (List.mem_cons_of_mem _ hx))
          (hsc p hpmem) (hsc q hqmem) hpq
      omega

/-! ### Properties of the enumeration pass -/

theorem mem_scoreFrom :
    ∀ (qfs : List QueueFamilyProperties) (k : Nat) (p : Nat × QueueCapabilities),
      p ∈ scoreQueueFamiliesFrom qfs k →
      ∃ j, j < qfs.length ∧ p.1 = k + j ∧
        p.2 = capabilitiesOf (qfs.getD j ⟨false, false, false⟩)
  | [], _, p, hp => by simp [scoreQueueFamiliesFrom] at hp
  | f :: rest, k, p, hp => by
    rcases List.mem_cons.mp hp with heq | ht
    · exact ⟨0, by simp, by rw [heq]; rfl, by rw [heq]; rfl⟩
    · obtain ⟨j, hj, h1, h2⟩ := mem_scoreFrom rest (k + 1) p ht
      refine ⟨j + 1, by simpa using Nat.succ_lt_succ hj, by omega, ?_⟩
      simpa using h2

theorem scoreFrom_mem :
    ∀ (qfs : List QueueFamilyProperties) (k j : Nat), j < qfs.length →
      (k + j, capabilitiesOf (qfs.getD j ⟨false, false, false⟩)) ∈
        scoreQueueFamiliesFrom qfs k
  | [], _, j, hj => absurd hj (by simp)
  | f :: rest, k, 0, _ => List.mem_cons_self _ _
  | f :: rest, k, j + 1, hj => by
    have hmem := scoreFrom_mem rest (k + 1) j (by simpa using hj)
    have he : k + (j + 1) = (k + 1) + j := by omega
    rw [scoreQueueFamiliesFrom, he]
    exact List.mem_cons_of_mem _ hmem

theorem mem_scored (qfs : List QueueFamilyProperties) (p : Nat × QueueCapabilities)
    (hp : p ∈ scoredQueueFamilies qfs) :
    p.1 < qfs.length ∧ p.2 = famCaps qfs p.1 := by
  obtain ⟨j, hj, h1, h2⟩ := mem_scoreFrom qfs 0 p hp
  have hj0 : p.1 = j := by omega
  rw [hj0]
  exact ⟨hj, h2⟩

theorem scored_mem (qfs : List QueueFamilyProperties) (i : Nat) (hi : i < qfs.length) :
    (i, famCaps qfs i) ∈ scoredQueueFamilies qfs := by
  have := scoreFrom_mem qfs 0 i hi
  simpa [famCaps, scoredQueueFamilies] using this

theorem scoreFrom_map_fst :
    ∀ (qfs : List QueueFamilyProperties) (k : Nat),
      (scoreQueueFamiliesFrom qfs k).map Prod.fst = List.range' k qfs.length
  | [], _ => rfl
  | f :: rest, k => by
    rw [scoreQueueFamiliesFrom, List.map_cons, scoreFrom_map_fst rest (k + 1)]
    rfl

theorem scored_map_fst_nodup (qfs : List QueueFamilyProperties) :
    ((scoredQueueFamilies qfs).map Prod.fst).Nodup := by
  rw [scoredQueueFamilies, scoreFrom_map_fst]
  exact List.nodup_range' _ _

/-! ## Device Selector (`Device::score`)

The enums below carry exactly the constructors that `Device::score` switches
on, plus one catch-all constructor for every other enum value (the `default:
continue;` cases). -/

inductive ColorSpaceKHR where
  | eSrgbNonlinear
  | eExtendedSrgbNonlinearEXT
  | otherColorSpace
deriving DecidableEq, Repr, Fintype

inductive VkFormat where
  | eR8G8B8Unorm
  | eR16G16B16A16Sfloat
  | eUndefined
  | otherFormat
deriving DecidableEq, Repr, Fintype

structure SurfaceFormatKHR where
  colorSpace : ColorSpaceKHR
  format : VkFormat
deriving DecidableEq, Repr, Fintype

inductive PresentModeKHR where
  | eImmediate
  | eFifoRelaxed
  | eFifo
  | eMailbox
  | otherPresentMode
deriving DecidableEq, Repr, Fintype

inductive PhysicalDeviceType where
  | eCpu
  | eOther
  | eVirtualGpu
  | eIntegratedGpu
  | eDiscreteGpu
deriving DecidableEq, Repr, Fintype

/-- Per-entry score of the surface-format loop in `Device::score`.  `none`
models the two `default: continue;` branches (the entry contributes
nothing). -/
def surfaceFormatScore (f : SurfaceFormatKHR) : Option Nat :=
  match f.colorSpace with
  | ColorSpaceKHR.eSrgbNonlinear =>
    match f.format with
    | VkFormat.eR8G8B8Unorm => some (1 + 1)
    | VkFormat.eR16G16B16A16Sfloat => some (1 + 10)
    | VkFormat.eUndefined => some (1 + 2)
    | VkFormat.otherFormat => none
  | ColorSpaceKHR.eExtendedSrgbNonlinearEXT =>
    match f.format with
    | VkFormat.eR8G8B8Unorm => some (100 + 1)
    | VkFormat.eR16G16B16A16Sfloat => some (100 + 10)
    | VkFormat.eUndefined => some (100 + 2)
    | VkFormat.otherFormat => none
  | ColorSpaceKHR.otherColorSpace => none

/-- Per-entry score of the present-mode loop in `Device::score`. -/
def presentModeScore (m : PresentModeKHR) : Option Nat :=
  match m with
  | PresentModeKHR.eImmediate => some 1
  | PresentModeKHR.eFifoRelaxed => some 2
  | PresentModeKHR.eFifo => some 3
  | PresentModeKHR.eMailbox => some 10
  | PresentModeKHR.otherPresentMode => none

/-- The best-surface-format loop of `Device::score`: keeps the running best
score and the format that attained it (strictly greater replaces). -/
def bestSurfaceFormatLoop :
    List SurfaceFormatKHR → Nat → Option SurfaceFormatKHR →
    Nat × Option SurfaceFormatKHR
  | [], best, cur => (best, cur)
  | f :: rest, best, cur =>
    match surfaceFormatScore f with
    | none => bestSurfaceFormatLoop rest best cur
    | some s =>
      if s > best then bestSurfaceFormatLoop rest s (some f)
      else bestSurfaceFormatLoop rest best cur

/-- The best-present-mode loop of `Device::score`. -/
def bestPresentModeLoop :
    List PresentModeKHR → Nat → Option PresentModeKHR →
    Nat × Option PresentModeKHR
  | [], best, cur => (best, cur)
  | m :: rest, best, cur =>
    match presentModeScore m with
    | none => bestPresentModeLoop rest best cur
    | some s =>
      if s > best then bestPresentModeLoop rest s (some m)
      else bestPresentModeLoop rest best cur

/-- The device-type tier switch at the end of `Device::score`. -/
def deviceTypeScore (t : PhysicalDeviceType) : Nat :=
  match t with
  | PhysicalDeviceType.eCpu => 1
  | PhysicalDeviceType.eOther => 1
  | PhysicalDeviceType.eVirtualGpu => 2
  | PhysicalDeviceType.eIntegratedGpu => 3
  | PhysicalDeviceType.eDiscreteGpu => 4

/-- One physical-device candidate, bundling the results of the Vulkan queries
`Device::score` performs: the three required-manifest checks
(`hasRequiredFeatures`, `meetsRequiredLimits`, `hasRequiredExtensions`, whose
internals the selector only consumes as booleans), the queue families, the
surface formats and present modes for the window's surface, and the device
type. -/
structure Candidate where
  featuresOk : Bool
  limitsOk : Bool
  extensionsOk : Bool
  queueFamilies : List QueueFamilyProperties
  surfaceFormats : List SurfaceFormatKHR
  presentModes : List PresentModeKHR
  deviceType : PhysicalDeviceType
deriving DecidableEq, Repr

/-- The union of capabilities over the negotiated queue-family assignment,
as accumulated by the `|=` loop in `Device::score`. -/
def deviceCapabilities (c : Candidate) : QueueCapabilities :=
  capUnion (findBestQueueFamilyIndices c.queueFamilies)

/-- `Device::score`.  The two `uint32_t` wrap-around guards
(`if (score < bestSurfaceFormatScore) return 0;` and its present-mode twin)
are kept; over `Nat` (as over `uint32_t` with these small weights) they never
fire. -/
def dscore (c : Candidate) : Int :=
  if !c.featuresOk then -1
  else if !c.limitsOk then -1
  else if !c.extensionsOk then -1
  else if !(deviceCapabilities c).handlesGraphicsAndCompute then -1
  else if !(deviceCapabilities c).handlesPresent then 0
  else
    let bestSurfaceFormatScore := (bestSurfaceFormatLoop c.surfaceFormats 0 none).1
    let score1 := 0 + bestSurfaceFormatScore
    if score1 < bestSurfaceFormatScore then 0
    else
      let bestSurfacePresentModeScore := (bestPresentModeLoop c.presentModes 0 none).1
      let score2 := score1 + bestSurfacePresentModeScore
      if score2 < bestSurfacePresentModeScore then 0
      else ((score2 + deviceTypeScore c.deviceType : Nat) : Int)

/-! ## Device selection (`Instance_base::findBestDeviceForWindow`) -/

/-- The enumeration loop of `Instance_base::findBestDeviceForWindow`:
`bestScore` starts at `-1`, `bestDevice` at null, and a candidate replaces
the running best whenever `score >= bestScore`. -/
def findBestLoop : List Candidate → Nat → Int → Option Nat → Int × Option Nat
  | [], _, bestScore, bestDevice => (bestScore, bestDevice)
  | c :: rest, i, bestScore, bestDevice =>
    if dscore c ≥ bestScore then findBestLoop rest (i + 1) (dscore c) (some i)
    else findBestLoop rest (i + 1) bestScore bestDevice

/-- `Instance_base::findBestDeviceForWindow`, returning the position of the
chosen device (pointer identity in the source).  A final best score of `-1`
yields null; a best score of `0` only logs a warning and falls through to
returning the best device. -/
def findBestDeviceForWindow (cs : List Candidate) : Option Nat :=
  let r := findBestLoop cs 0 (-1) none
  if r.1 = -1 then none else r.2

/-! ## Present-mode ranking as worded by the spec

Modelled from the spec: section 4.2 ranks present modes
"mailbox > fifo-relaxed > fifo > immediate".  This ranking exists only to be
compared with the embedded code's scoring; modes the spec does not mention
rank lowest. -/
def specPresentModeRank (m : PresentModeKHR) : Nat :=
  match m with
  | PresentModeKHR.eMailbox => 4
  | PresentModeKHR.eFifoRelaxed => 3
  | PresentModeKHR.eFifo => 2
  | PresentModeKHR.eImmediate => 1
  | PresentModeKHR.otherPresentMode => 0

/-! ## Pipeline Resource Manager (`Pipeline_vulkan`)

GPU handles are modelled as natural numbers drawn from a monotone allocation
counter `nextHandle`, so a freshly created resource is distinguishable from
every previously existing one.  A command buffer carries, besides its handle,
the number of times it has been recorded (each `validateCommandBuffer` pass
that actually records performs one `reset`/`begin`/…/`end` cycle). -/

structure CommandBuffer where
  handle : Nat
  recordCount : Nat
deriving DecidableEq, Repr

structure Extent2D where
  width : Nat
  height : Nat
deriving DecidableEq, Repr

/-- The pipeline-state object, as configured by `buildPipeline`: bound to a
render pass, an extent (via viewport/scissor) and the current shader
stages. -/
structure PipelineStateObject where
  renderPass : Nat
  extent : Extent2D
  stageCount : Nat
deriving DecidableEq, Repr

/-- The mutable resource state of one `Pipeline_vulkan` instance. -/
structure PipelineState where
  shaderModules : List Nat
  shaderStages : List Nat
  vertexBuffers : List Nat
  commandBuffers : List CommandBuffer
  commandBuffersValid : List Bool
  renderFinishedSemaphores : List Nat
  pso : Option PipelineStateObject
  nextHandle : Nat
deriving DecidableEq, Repr

/-- A queue submission, as assembled by `Pipeline_vulkan::render`: one wait
semaphore, one command buffer, one signal semaphore. -/
structure Submission where
  waitSemaphore : Nat
  commandBuffer : Nat
  signalSemaphore : Nat
deriving DecidableEq, Repr

namespace PipelineState

/-- `Pipeline_vulkan::invalidateCommandBuffers`: clear every valid-bit; the
allocation itself is untouched. -/
def invalidateCommandBuffers (s : PipelineState) : PipelineState :=
  { s with commandBuffersValid := s.commandBuffersValid.map (fun _ => false) }

/-- `Pipeline_vulkan::buildShaders`: `createShaderModules` and
`createShaderStages` are pure virtuals whose module count is
subclass-specific; modelled as two fresh modules (vertex + fragment) with one
stage each. -/
def buildShaders (s : PipelineState) : PipelineState :=
  { s with shaderModules := [s.nextHandle, s.nextHandle + 1],
           shaderStages := [s.nextHandle, s.nextHandle + 1],
           nextHandle := s.nextHandle + 2 }

def teardownShaders (s : PipelineState) : PipelineState :=
  { s with shaderModules := [], shaderStages := [] }

/-- `Pipeline_vulkan::buildVertexBuffers`: one fresh buffer per frame
buffer. -/
def buildVertexBuffers (s : PipelineState) (nrFrameBuffers : Nat) : PipelineState :=
  { s with vertexBuffers := (List.range nrFrameBuffers).map (fun k => s.nextHandle + k),
           nextHandle := s.nextHandle + nrFrameBuffers }

def teardownVertexBuffers (s : PipelineState) : PipelineState :=
  { s with vertexBuffers := [] }

/-- `Pipeline_vulkan::buildCommandBuffers`: allocate `nrFrameBuffers` fresh
command buffers, resize the valid-bit vector, then call
`invalidateCommandBuffers`. -/
def buildCommandBuffers (s : PipelineState) (nrFrameBuffers : Nat) : PipelineState :=
  invalidateCommandBuffers
    { s with
        commandBuffers :=
          (List.range nrFrameBuffers).map (fun k => ⟨s.nextHandle + k, 0⟩),
        nextHandle := s.nextHandle + nrFrameBuffers,
        commandBuffersValid :=
          s.commandBuffersValid.take nrFrameBuffers ++
            List.replicate (nrFrameBuffers - s.commandBuffersValid.length) false }

def teardownCommandBuffers (s : PipelineState) : PipelineState :=
  { s with commandBuffers := [], commandBuffersValid := [] }

/-- `Pipeline_vulkan::buildSemaphores`: resize, then overwrite every slot in
`[0, nrFrameBuffers)` with a freshly created semaphore. -/
def buildSemaphores (s : PipelineState) (nrFrameBuffers : Nat) : PipelineState :=
  { s with renderFinishedSemaphores :=
             (List.range nrFrameBuffers).map (fun k => s.nextHandle + k),
           nextHandle := s.nextHandle + nrFrameBuffers }

def teardownSemaphores (s : PipelineState) : PipelineState :=
  { s with renderFinishedSemaphores := [] }

/-- `Pipeline_vulkan::buildPipeline`: the pipeline-state object captures the
render pass, the extent (viewports/scissors) and the current shader
stages. -/
def buildPipeline (s : PipelineState) (renderPass : Nat) (extent : Extent2D) :
    PipelineState :=
  { s with pso := some ⟨renderPass, extent, s.shaderStages.length⟩ }

def teardownPipeline (s : PipelineState) : PipelineState :=
  { s with pso := none }

/-- `Pipeline_vulkan::buildForDeviceChange`. -/
def buildForDeviceChange (s : PipelineState) (renderPass : Nat) (extent : Extent2D)
    (nrFrameBuffers : Nat) : PipelineState :=
  buildPipeline
    (buildSemaphores
      (buildCommandBuffers
        (buildVertexBuffers (buildShaders s) nrFrameBuffers) nrFrameBuffers)
      nrFrameBuffers)
    renderPass extent

/-- `Pipeline_vulkan::teardownForDeviceChange`. -/
def teardownForDeviceChange (s : PipelineState) : PipelineState :=
  teardownShaders
    (teardownVertexBuffers
      (teardownCommandBuffers (teardownSemaphores (teardownPipeline s))))

/-- `Pipeline_vulkan::buildForSwapchainChange`: vertex/command buffers and
semaphores are torn down and rebuilt only when the frame-buffer count
changed; command buffers are always invalidated and the pipeline-state
object is always rebuilt. -/
def buildForSwapchainChange (s : PipelineState) (renderPass : Nat) (extent : Extent2D)
    (nrFrameBuffers : Nat) : PipelineState :=
  let s1 :=
    if nrFrameBuffers ≠ s.commandBuffers.length then
      buildSemaphores
        (buildCommandBuffers
          (buildVertexBuffers
            (teardownVertexBuffers (teardownCommandBuffers (teardownSemaphores s)))
            nrFrameBuffers)
          nrFrameBuffers)
        nrFrameBuffers
    else s
  buildPipeline (invalidateCommandBuffers s1) renderPass extent

/-- `Pipeline_vulkan::teardownForSwapchainChange`. -/
def teardownForSwapchainChange (s : PipelineState) : PipelineState :=
  teardownPipeline s

/-- `Pipeline_vulkan::validateCommandBuffer`: return immediately when the
valid-bit is set; otherwise re-record the command buffer (one
reset/begin/…/end cycle) and set the valid-bit. -/
def validateCommandBuffer (s : PipelineState) (imageIndex : Nat) : PipelineState :=
  if s.commandBuffersValid.getD imageIndex false then s
  else
    let cb := s.commandBuffers.getD imageIndex ⟨0, 0⟩
    { s with
        commandBuffers :=
          s.commandBuffers.set imageIndex ⟨cb.handle, cb.recordCount + 1⟩,
        commandBuffersValid := s.commandBuffersValid.set imageIndex true }

/-- `Pipeline_vulkan::render`: validate the command buffer, submit it with
the given wait semaphore, and return that image's render-finished
semaphore. -/
def render (s : PipelineState) (imageIndex : Nat) (inputSemaphore : Nat) :
    PipelineState × Submission × Nat :=
  let s1 := validateCommandBuffer s imageIndex
  let signal := s1.renderFinishedSemaphores.getD imageIndex 0
  (s1,
   ⟨inputSemaphore, (s1.commandBuffers.getD imageIndex ⟨0, 0⟩).handle, signal⟩,
   signal)

end PipelineState

/-- The parallel-sizing invariant of a pipeline's per-image containers: the
valid-bit vector and the semaphore vector track the command-buffer vector's
length (the built image count). -/
def lenInv (s : PipelineState) : Prop :=
  s.commandBuffersValid.length = s.commandBuffers.length ∧
  s.renderFinishedSemaphores.length = s.commandBuffers.length

/-! ### Characterizations of the best-score loops -/

theorem presentModeScore_pos (m : PresentModeKHR) (s : Nat)
    (h : presentModeScore m = some s) : 1 ≤ s := by
  cases m <;> simp [presentModeScore] at h <;> omega

theorem bestPresentModeLoop_spec :
    ∀ (modes : List PresentModeKHR) (best : Nat) (cur : Option PresentModeKHR),
      (∀ m ∈ modes, ∀ sm, presentModeScore m = some sm →
        sm ≤ (bestPresentModeLoop modes best cur).1) ∧
      best ≤ (bestPresentModeLoop modes best cur).1 ∧
      ((bestPresentModeLoop modes best cur).2 = cur ∧
        (bestPresentModeLoop modes best cur).1 = best ∨
       ∃ m ∈ modes, ∃ sm, presentModeScore m = some sm ∧
         (bestPresentModeLoop modes best cur).2 = some m ∧
         (bestPresentModeLoop modes best cur).1 = sm)
  | [], best, cur => ⟨fun m hm => absurd hm (List.not_mem_nil m), Nat.le_refl _,
      Or.inl ⟨rfl, rfl⟩⟩
  | m :: rest, best, cur => by
    obtain ⟨ih1, ih2, ih3⟩ := bestPresentModeLoop_spec rest best cur
    cases hsc : presentModeScore m with
    | none =>
      rw [bestPresentModeLoop, hsc]
      dsimp only
      refine ⟨?_, ih2, ?_⟩
      · intro m' hm' sm hsm
        rcases List.mem_cons.mp hm' with heq | ht
        · rw [heq, hsc] at hsm
          exact absurd hsm (by simp)
        · exact ih1 m' ht sm hsm
      · rcases ih3 with h | ⟨m', hm', rest'⟩
        · exact Or.inl h
        · exact Or.inr ⟨m', List.mem_cons_of_mem _ hm', rest'⟩
    | some s =>
      rw [bestPresentModeLoop, hsc]
      dsimp only
      by_cases hgt : s > best
      · obtain ⟨jh1, jh2, jh3⟩ := bestPresentModeLoop_spec rest s (some m)
        rw [if_pos hgt]
        refine ⟨?_, Nat.le_trans (Nat.le_of_lt hgt) jh2, ?_⟩
        · intro m' hm' sm hsm
          rcases List.mem_cons.mp hm' with heq | ht
          · rw [heq, hsc] at hsm
            cases hsm
            exact jh2
          · exact jh1 m' ht sm hsm
        · rcases jh3 with ⟨hc, hb⟩ | ⟨m', hm', rest'⟩
          · exact Or.inr ⟨m, List.mem_cons_self _ _, s, hsc, hc, hb⟩
          · exact Or.inr ⟨m', List.mem_cons_of_mem _ hm', rest'⟩
      · rw [if_neg hgt]
        refine ⟨?_, ih2, ?_⟩
        · intro m' hm' sm hsm
          rcases List.mem_cons.mp hm' with heq | ht
          · rw [heq, hsc] at hsm
            cases hsm
            exact Nat.le_trans (Nat.le_of_not_lt hgt) ih2
          · exact ih1 m' ht sm hsm
        · rcases ih3 with h | ⟨m', hm', rest'⟩
          · exact Or.inl h
          · exact Or.inr ⟨m', List.mem_cons_of_mem _ hm', rest'⟩

theorem bestPresentModeLoop_append_fst :
    ∀ (l : List PresentModeKHR) (x : PresentModeKHR) (best : Nat)
      (cur : Option PresentModeKHR),
      (bestPresentModeLoop l best cur).1 ≤ (bestPresentModeLoop (l ++ [x]) best cur).1
  | [], x, best, cur => by
    show best ≤ (bestPresentModeLoop [x] best cur).1
    cases hsc : presentModeScore x with
    | none => simp [bestPresentModeLoop, hsc]
    | some s =>
      by_cases hgt : s > best
      · simp [bestPresentModeLoop, hsc, if_pos hgt]
        omega
      · simp [bestPresentModeLoop, hsc, if_neg hgt]
  | m :: rest, x, best, cur => by
    rw [List.cons_append, bestPresentModeLoop, bestPresentModeLoop]
    cases hsc : presentModeScore m with
    | none => exact bestPresentModeLoop_append_fst rest x best cur
    | some s =>
      dsimp only
      by_cases hgt : s > best
      · simp only [if_pos hgt]
        exact bestPresentModeLoop_append_fst rest x s (some m)
      · simp only [if_neg hgt]
        exact bestPresentModeLoop_append_fst rest x best cur

theorem bestSurfaceFormatLoop_append_fst :
    ∀ (l : List SurfaceFormatKHR) (x : SurfaceFormatKHR) (best : Nat)
      (cur : Option SurfaceFormatKHR),
      (bestSurfaceFormatLoop l best cur).1 ≤ (bestSurfaceFormatLoop (l ++ [x]) best cur).1
  | [], x, best, cur => by
    show best ≤ (bestSurfaceFormatLoop [x] best cur).1
    cases hsc : surfaceFormatScore x with
    | none => simp [bestSurfaceFormatLoop, hsc]
    | some s =>
      by_cases hgt : s > best
      · simp [bestSurfaceFormatLoop, hsc, if_pos hgt]
        omega
      · simp [bestSurfaceFormatLoop, hsc, if_neg hgt]
  | m :: rest, x, best, cur => by
    rw [List.cons_append, bestSurfaceFormatLoop, bestSurfaceFormatLoop]
    cases hsc : surfaceFormatScore m with
    | none => exact bestSurfaceFormatLoop_append_fst rest x best cur
    | some s =>
      dsimp only
      by_cases hgt : s > best
      · simp only [if_pos hgt]
        exact bestSurfaceFormatLoop_append_fst rest x s (some m)
      · simp only [if_neg hgt]
        exact bestSurfaceFormatLoop_append_fst rest x best cur

/-! ### Characterization of the selection loop -/

def defaultCandidate : Candidate :=
  ⟨false, false, false, [], [], [], PhysicalDeviceType.eCpu⟩

/-- Either no candidate scored at least the running best (the accumulator is
returned unchanged and every score was below it), or the loop returns the
last position attaining the final, maximal, score. -/
theorem findBestLoop_spec :
    ∀ (cs : List Candidate) (i0 : Nat) (bs : Int) (bd : Option Nat),
      (findBestLoop cs i0 bs bd = (bs, bd) ∧
        ∀ k, k < cs.length → dscore (cs.getD k defaultCandidate) < bs) ∨
      (∃ k, k < cs.length ∧
        (findBestLoop cs i0 bs bd).2 = some (i0 + k) ∧
        (findBestLoop cs i0 bs bd).1 = dscore (cs.getD k defaultCandidate) ∧
        bs ≤ (findBestLoop cs i0 bs bd).1 ∧
        (∀ m, m < cs.length →
          dscore (cs.getD m defaultCandidate) ≤ (findBestLoop cs i0 bs bd).1) ∧
        (∀ m, k < m → m < cs.length →
          dscore (cs.getD m defaultCandidate) < (findBestLoop cs i0 bs bd).1))
  | [], _, _, _ => Or.inl ⟨rfl, fun k hk => absurd hk (by simp)⟩
  | c :: rest, i0, bs, bd => by
    rw [findBestLoop]
    by_cases hge : dscore c ≥ bs
    · rw [if_pos hge]
      rcases findBestLoop_spec rest (i0 + 1) (dscore c) (some i0) with
        ⟨heq, hall⟩ | ⟨k, hk, h2, h3, h4, h5, h6⟩
      · refine Or.inr ⟨0, by simp, ?_, ?_, ?_, ?_, ?_⟩
        · rw [heq]
          rfl
        · rw [heq]
          rfl
        · rw [heq]
          exact hge
        · intro m hm
          rw [heq]
          cases m with
          | zero => exact le_refl _
          | succ m' => exact le_of_lt (hall m' (by simpa using hm))
        · intro m hm0 hm
          rw [heq]
          cases m with
          | zero => exact absurd hm0 (by omega)
          | succ m' => exact hall m' (by simpa using hm)
      · refine Or.inr ⟨k + 1, by simpa using Nat.succ_lt_succ hk, ?_, h3, ?_, ?_, ?_⟩
        · rw [h2]
          have : i0 + 1 + k = i0 + (k + 1) := by omega
          rw [this]
        · exact le_trans hge h4
        · intro m hm
          cases m with
          | zero => exact h4
          | succ m' => exact h5 m' (by simpa using hm)
        · intro m hm0 hm
          cases m with
          | zero => exact absurd hm0 (by omega)
          | succ m' => exact h6 m' (by omega) (by simpa using hm)
    · rw [if_neg hge]
      have hlt : dscore c < bs := lt_of_not_ge hge
      rcases findBestLoop_spec rest (i0 + 1) bs bd with
        ⟨heq, hall⟩ | ⟨k, hk, h2, h3, h4, h5, h6⟩
      · refine Or.inl ⟨heq, ?_⟩
        intro k hk
        cases k with
        | zero => exact hlt
        | succ k' => exact hall k' (by simpa using hk)
      · refine Or.inr ⟨k + 1, by simpa using Nat.succ_lt_succ hk, ?_, h3, h4, ?_, ?_⟩
        · rw [h2]
          have : i0 + 1 + k = i0 + (k + 1) := by omega
          rw [this]
        · intro m hm
          cases m with
          | zero => exact le_trans (le_of_lt hlt) h4
          | succ m' => exact h5 m' (by simpa using hm)
        · intro m hm0 hm
          cases m with
          | zero => exact absurd hm0 (by omega)
          | succ m' => exact h6 m' (by omega) (by simpa using hm)

/-- The positive branch of `Device::score`, written out: once every guard
passes, the score is the format score plus the present-mode score plus the
device-type tier. -/
theorem dscore_pos_branch (c : Candidate)
    (h1 : c.featuresOk = true) (h2 : c.limitsOk = true) (h3 : c.extensionsOk = true)
    (h4 : (deviceCapabilities c).handlesGraphicsAndCompute = true)
    (h5 : (deviceCapabilities c).handlesPresent = true) :
    dscore c = (((bestSurfaceFormatLoop c.surfaceFormats 0 none).1 +
      (bestPresentModeLoop c.presentModes 0 none).1 +
      deviceTypeScore c.deviceType : Nat) : Int) := by
  unfold dscore
  rw [h1, h2, h3, h4, h5]
  simp only [Bool.not_true, Bool.false_eq_true, if_false]
  rw [if_neg (by omega), if_neg (by omega)]
  norm_num

/-! ## The claims -/

/-- C1: for every candidate device, `Device::score` returns the `-1`
rejection sentinel when required features, limits or extensions are unmet,
or when the negotiated queue-family assignment does not cover both graphics
and compute; it returns `0` when graphics and compute are covered but no
present-capable queue family was found; otherwise it returns a positive
score. -/
theorem claim1_deviceScore_classification (c : Candidate) :
    ((c.featuresOk = false ∨ c.limitsOk = false ∨ c.extensionsOk = false ∨
        (deviceCapabilities c).handlesGraphicsAndCompute = false) →
      dscore c = -1) ∧
    (c.featuresOk = true → c.limitsOk = true → c.extensionsOk = true →
      (deviceCapabilities c).handlesGraphicsAndCompute = true →
      (deviceCapabilities c).handlesPresent = false → dscore c = 0) ∧
    (c.featuresOk = true → c.limitsOk = true → c.extensionsOk = true →
      (deviceCapabilities c).handlesGraphicsAndCompute = true →
      (deviceCapabilities c).handlesPresent = true → 0 < dscore c) := by
  refine ⟨?_, ?_, ?_⟩
  · intro h
    rcases h with h | h | h | h <;>
      · unfold dscore
        rw [h]
        cases hf : c.featuresOk <;> cases hl : c.limitsOk <;>
          cases he : c.extensionsOk <;> simp [hf, hl, he]
  · intro h1 h2 h3 h4 h5
    unfold dscore
    rw [h1, h2, h3, h4, h5]
    simp
  · intro h1 h2 h3 h4 h5
    rw [dscore_pos_branch c h1 h2 h3 h4 h5]
    have ht : 1 ≤ deviceTypeScore c.deviceType := by
      cases c.deviceType <;> simp [deviceTypeScore]
    omega

/-- A concrete all-capable discrete GPU candidate. -/
def candFull : Candidate :=
  ⟨true, true, true, [⟨true, true, true⟩], [], [], PhysicalDeviceType.eDiscreteGpu⟩

/-- Witness for C1: the classification applied to a concrete candidate whose
single queue family handles everything yields a positive score. -/
theorem claim1_witness : 0 < dscore candFull :=
  (claim1_deviceScore_classification candFull).2.2 rfl rfl rfl (by decide) (by decide)

/-- Every guard of `Device::score` passes on a positively scored candidate. -/
theorem dscore_guards_of_pos (c : Candidate) (hpos : 0 < dscore c) :
    c.featuresOk = true ∧ c.limitsOk = true ∧ c.extensionsOk = true ∧
    (deviceCapabilities c).handlesGraphicsAndCompute = true ∧
    (deviceCapabilities c).handlesPresent = true := by
  have h1 : c.featuresOk = true := by
    cases h : c.featuresOk
    · exfalso
      unfold dscore at hpos
      rw [h] at hpos
      simp at hpos
    · rfl
  have h2 : c.limitsOk = true := by
    cases h : c.limitsOk
    · exfalso
      unfold dscore at hpos
      rw [h, h1] at hpos
      simp at hpos
    · rfl
  have h3 : c.extensionsOk = true := by
    cases h : c.extensionsOk
    · exfalso
      unfold dscore at hpos
      rw [h, h1, h2] at hpos
      simp at hpos
    · rfl
  have h4 : (deviceCapabilities c).handlesGraphicsAndCompute = true := by
    cases h : (deviceCapabilities c).handlesGraphicsAndCompute
    · exfalso
      unfold dscore at hpos
      rw [h, h1, h2, h3] at hpos
      simp at hpos
    · rfl
  have h5 : (deviceCapabilities c).handlesPresent = true := by
    cases h : (deviceCapabilities c).handlesPresent
    · exfalso
      unfold dscore at hpos
      rw [h, h1, h2, h3, h4] at hpos
      simp at hpos
    · rfl
  exact ⟨h1, h2, h3, h4, h5⟩

/-- C2 counterexample: with two identical positively scored candidates (a
tie at the maximum), `Instance_base::findBestDeviceForWindow` returns the
second (position 1), not the first-enumerated one, because the loop updates
on `score >= bestScore`. -/
theorem claim2_counterexample :
    findBestDeviceForWindow [candFull, candFull] = some 1 ∧ 0 < dscore candFull := by
  decide

/-- C2 amended: device selection returns the last-enumerated candidate among
those attaining the maximum score (the loop replaces the running best on
`score >= bestScore`); in particular every candidate's score is at most the
winner's, and every candidate after the winner scores strictly less. -/
theorem claim2_amended_last_max (cs : List Candidate) (j : Nat)
    (h : findBestDeviceForWindow cs = some j) :
    j < cs.length ∧
    (∀ k, k < cs.length →
      dscore (cs.getD k defaultCandidate) ≤ dscore (cs.getD j defaultCandidate)) ∧
    (∀ k, j < k → k < cs.length →
      dscore (cs.getD k defaultCandidate) < dscore (cs.getD j defaultCandidate)) := by
  simp only [findBestDeviceForWindow] at h
  by_cases h1 : (findBestLoop cs 0 (-1) none).1 = -1
  · rw [if_pos h1] at h
    simp at h
  · rw [if_neg h1] at h
    rcases findBestLoop_spec cs 0 (-1) none with ⟨heq, hall⟩ | ⟨k, hk, h2, h3, h4, h5, h6⟩
    · rw [heq] at h
      simp at h
    · rw [h2] at h
      have hj : j = k := by
        injection h with h
        omega
      subst hj
      refine ⟨hk, ?_, ?_⟩
      · intro m hm
        have hle := h5 m hm
        rw [h3] at hle
        exact hle
      · intro m hm0 hm
        have hlt := h6 m hm0 hm
        rw [h3] at hlt
        exact hlt

/-- Witness for the amended C2: instantiated on the concrete tie, the winner
is a valid position. -/
theorem claim2_amended_witness : (1 : Nat) < 2 :=
  (claim2_amended_last_max [candFull, candFull] 1 (by decide)).1

/-- C3 counterexample: with supported modes {fifo-relaxed, fifo} the code
chooses fifo as `bestSurfacePresentMode`, although the spec's ranking places
fifo-relaxed above fifo. -/
theorem claim3_counterexample :
    (bestPresentModeLoop [PresentModeKHR.eFifoRelaxed, PresentModeKHR.eFifo] 0 none).2 =
      some PresentModeKHR.eFifo ∧
    specPresentModeRank PresentModeKHR.eFifo <
      specPresentModeRank PresentModeKHR.eFifoRelaxed := by
  decide

/-- C3 amended: the code's ranking is mailbox (10) > fifo (3) > fifo-relaxed
(2) > immediate (1): the chosen `bestSurfacePresentMode` always attains the
maximum of `presentModeScore` over the supported modes, so a higher-scoring
supported mode is always chosen over any lower-scoring one. -/
theorem claim3_amended_bestPresentMode (modes : List PresentModeKHR)
    (m : PresentModeKHR) (sm : Nat) (hm : m ∈ modes)
    (hs : presentModeScore m = some sm) :
    ∃ m' sm', (bestPresentModeLoop modes 0 none).2 = some m' ∧
      presentModeScore m' = some sm' ∧ sm ≤ sm' := by
  obtain ⟨hall, hbest, hcase⟩ := bestPresentModeLoop_spec modes 0 none
  rcases hcase with ⟨hcur, hb⟩ | ⟨m', hm', sm', hsm', hc2, hc3⟩
  · have ha := hall m hm sm hs
    have hb1 := presentModeScore_pos m sm hs
    rw [hb] at ha
    omega
  · refine ⟨m', sm', hc2, hsm', ?_⟩
    rw [← hc3]
    exact hall m hm sm hs

/-- Witness for the amended C3 at the counterexample's input. -/
theorem claim3_amended_witness :
    ∃ m' sm',
      (bestPresentModeLoop [PresentModeKHR.eFifoRelaxed, PresentModeKHR.eFifo] 0 none).2 =
        some m' ∧ presentModeScore m' = some sm' ∧ 2 ≤ sm' :=
  claim3_amended_bestPresentMode
    [PresentModeKHR.eFifoRelaxed, PresentModeKHR.eFifo]
    PresentModeKHR.eFifoRelaxed 2 (by decide) (by decide)

/-- C9: device scoring is monotonic: for a positively scored candidate,
appending a present mode or a surface format whose score is at least the
current best cannot decrease the total score. -/
theorem claim9_monotone (c : Candidate) (m : PresentModeKHR) (f : SurfaceFormatKHR)
    (sm sf : Nat) (hpos : 0 < dscore c)
    (hm : presentModeScore m = some sm)
    (hmge : (bestPresentModeLoop c.presentModes 0 none).1 ≤ sm)
    (hf : surfaceFormatScore f = some sf)
    (hfge : (bestSurfaceFormatLoop c.surfaceFormats 0 none).1 ≤ sf) :
    dscore c ≤ dscore { c with presentModes := c.presentModes ++ [m] } ∧
    dscore c ≤ dscore { c with surfaceFormats := c.surfaceFormats ++ [f] } := by
  obtain ⟨h1, h2, h3, h4, h5⟩ := dscore_guards_of_pos c hpos
  constructor
  · rw [dscore_pos_branch c h1 h2 h3 h4 h5,
      dscore_pos_branch { c with presentModes := c.presentModes ++ [m] } h1 h2 h3 h4 h5]
    have hstep := bestPresentModeLoop_append_fst c.presentModes m 0 none
    have hle : (bestSurfaceFormatLoop c.surfaceFormats 0 none).1 +
        (bestPresentModeLoop c.presentModes 0 none).1 + deviceTypeScore c.deviceType ≤
        (bestSurfaceFormatLoop c.surfaceFormats 0 none).1 +
        (bestPresentModeLoop (c.presentModes ++ [m]) 0 none).1 +
        deviceTypeScore c.deviceType := by omega
    exact_mod_cast hle
  · rw [dscore_pos_branch c h1 h2 h3 h4 h5,
      dscore_pos_branch { c with surfaceFormats := c.surfaceFormats ++ [f] } h1 h2 h3 h4 h5]
    have hstep := bestSurfaceFormatLoop_append_fst c.surfaceFormats f 0 none
    have hle : (bestSurfaceFormatLoop c.surfaceFormats 0 none).1 +
        (bestPresentModeLoop c.presentModes 0 none).1 + deviceTypeScore c.deviceType ≤
        (bestSurfaceFormatLoop (c.surfaceFormats ++ [f]) 0 none).1 +
        (bestPresentModeLoop c.presentModes 0 none).1 +
        deviceTypeScore c.deviceType := by omega
    exact_mod_cast hle

/-- Witness for C9: appending mailbox (score 10) and an sRGB format (score 2)
to the concrete candidate, whose best scores are both 0, does not decrease
its score. -/
theorem claim9_witness :
    dscore candFull ≤
      dscore { candFull with presentModes := candFull.presentModes ++
        [PresentModeKHR.eMailbox] } :=
  (claim9_monotone candFull PresentModeKHR.eMailbox
    ⟨ColorSpaceKHR.eSrgbNonlinear, VkFormat.eR8G8B8Unorm⟩ 10 2
    (by decide) (by decide) (by decide) (by decide) (by decide)).1

/-! ### Union over the raw input families -/

/-- Union of the capability sets of all families in the input. -/
def famUnion (qfs : List QueueFamilyProperties) : QueueCapabilities :=
  qfs.foldr (fun f acc => (capabilitiesOf f).union acc) emptyCaps

theorem capUnion_scoreFrom :
    ∀ (qfs : List QueueFamilyProperties) (k : Nat),
      capUnion (scoreQueueFamiliesFrom qfs k) = famUnion qfs
  | [], _ => rfl
  | f :: rest, k => by
    rw [scoreQueueFamiliesFrom, capUnion_cons, capUnion_scoreFrom rest (k + 1)]
    rfl

/-- The insertion-sort concretization satisfies the `std::sort` contract. -/
theorem sortQueueFamilies_isSortOf (l : List (Nat × QueueCapabilities)) :
    IsSortOf l (sortQueueFamilies l) :=
  ⟨List.perm_insertionSort qfLE l, List.sorted_insertionSort qfLE l⟩

/-- Any permutation of the scored input fed to the greedy pass yields the
same capability union: the union over the whole input. -/
theorem greedy_capUnion_eq (qfs : List QueueFamilyProperties)
    (l : List (Nat × QueueCapabilities))
    (hperm : l.Perm (scoredQueueFamilies qfs)) :
    capUnion (greedyAccumulate l emptyCaps) = famUnion qfs := by
  have h1 := greedy_union l emptyCaps
  rw [caps_union_empty_right, caps_union_empty_right] at h1
  rw [h1, capUnion_perm hperm, scoredQueueFamilies, capUnion_scoreFrom]

/-- Extraction of a role witness from a capability union. -/
theorem capUnion_role (f : QueueCapabilities → Bool)
    (hf : ∀ a b, f (a.union b) = (f a || f b)) (hempty : f emptyCaps = false) :
    ∀ l : List (Nat × QueueCapabilities),
      f (capUnion l) = true → ∃ p ∈ l, f p.2 = true
  | [], h => by
    rw [show capUnion [] = emptyCaps from rfl, hempty] at h
    cases h
  | p :: t, h => by
    rw [capUnion_cons, hf] at h
    rcases Bool.or_eq_true_iff.mp h with h1 | h1
    · exact ⟨p, List.mem_cons_self _ _, h1⟩
    · obtain ⟨q, hq, hrole⟩ := capUnion_role f hf hempty t h1
      exact ⟨q, List.mem_cons_of_mem _ hq, hrole⟩

/-- C5: for every input list of queue families and every ordering satisfying
the `std::sort` contract, the union of the capability sets of all pairs
returned by the greedy pass equals the union of the capability sets of all
queue families in the input. -/
theorem claim5_union_preserved (qfs : List QueueFamilyProperties)
    (l : List (Nat × QueueCapabilities))
    (hsort : IsSortOf (scoredQueueFamilies qfs) l) :
    capUnion (greedyAccumulate l emptyCaps) = famUnion qfs :=
  greedy_capUnion_eq qfs l hsort.1

/-- A concrete two-family input: graphics-only and present+compute. -/
def qfsW : List QueueFamilyProperties :=
  [⟨true, false, false⟩, ⟨false, true, true⟩]

/-- Witness for C5 on a concrete input, with the sort instantiated to the
insertion-sort realization of the `std::sort` contract. -/
theorem claim5_witness :
    capUnion (greedyAccumulate (sortQueueFamilies (scoredQueueFamilies qfsW)) emptyCaps) =
      famUnion qfsW :=
  claim5_union_preserved qfsW _ ⟨by decide, by decide⟩

/-- C4: whenever the input families jointly cover all three roles, the greedy
pass (over any ordering satisfying the `std::sort` contract) returns an
assignment using the minimum possible number of distinct queue families: no
covering subset of the input positions is shorter, and the returned index
set itself is a covering subset of exactly that size. -/
theorem claim4_greedy_minimal (qfs : List QueueFamilyProperties)
    (l : List (Nat × QueueCapabilities))
    (hsort : IsSortOf (scoredQueueFamilies qfs) l)
    (hcov : (famUnion qfs).handlesEverything = true) :
    (∀ s, validSubset qfs s → coversIdxList qfs s →
      (greedyAccumulate l emptyCaps).length ≤ s.length) ∧
    (∃ s, validSubset qfs s ∧ coversIdxList qfs s ∧
      s.length = (greedyAccumulate l emptyCaps).length) := by
  obtain ⟨hperm, hpair⟩ := hsort
  constructor
  · rintro s ⟨hnd, hbound⟩ ⟨⟨ig, hig, hg⟩, ⟨ip, hip, hp⟩, ⟨ic, hic, hc⟩⟩
    rcases s with _ | ⟨i, tail⟩
    · exact absurd hig (List.not_mem_nil _)
    rcases tail with _ | ⟨j, tail2⟩
    · have hgi : ig = i := List.mem_singleton.mp hig
      have hpi : ip = i := List.mem_singleton.mp hip
      have hci : ic = i := List.mem_singleton.mp hic
      rw [hgi] at hg
      rw [hpi] at hp
      rw [hci] at hc
      have hfull := caps_roles_full _ hg hp hc
      have hi_mem : i < qfs.length := hbound i (List.mem_singleton_self i)
      have hmem : (i, famCaps qfs i) ∈ l :=
        hperm.mem_iff.mpr (scored_mem qfs i hi_mem)
      have hone := greedy_one_of_full l hpair ⟨(i, famCaps qfs i), hmem, hfull⟩
      rw [hone]
      exact Nat.le_refl 1
    rcases tail2 with _ | ⟨k, tail3⟩
    · have hi_mem : i < qfs.length := hbound i (by simp)
      have hj_mem : j < qfs.length := hbound j (by simp)
      have hmi : (i, famCaps qfs i) ∈ l :=
        hperm.mem_iff.mpr (scored_mem qfs i hi_mem)
      have hmj : (j, famCaps qfs j) ∈ l :=
        hperm.mem_iff.mpr (scored_mem qfs j hj_mem)
      have hun : ((famCaps qfs i).union (famCaps qfs j)).handlesEverything = true := by
        apply caps_union_full_of_roles
        · rcases List.mem_pair.mp hig with h | h
          · rw [h] at hg
            exact Or.inl hg
          · rw [h] at hg
            exact Or.inr hg
        · rcases List.mem_pair.mp hip with h | h
          · rw [h] at hp
            exact Or.inl hp
          · rw [h] at hp
            exact Or.inr hp
        · rcases List.mem_pair.mp hic with h | h
          · rw [h] at hc
            exact Or.inl hc
          · rw [h] at hc
            exact Or.inr hc
      have htwo := greedy_le_two_of_pair l hpair
        ⟨(i, famCaps qfs i), hmi, (j, famCaps qfs j), hmj, hun⟩
      simpa using htwo
    · have h3 := greedy_length_le_missing l emptyCaps
      have hm : missingCount emptyCaps = 3 := rfl
      simp only [List.length_cons]
      omega
  · have hcap : capUnion (greedyAccumulate l emptyCaps) = famUnion qfs :=
      greedy_capUnion_eq qfs l hperm
    have hroles := caps_full_union_roles _ hcov
    have hrole_of :
        ∀ f : QueueCapabilities → Bool,
          (∀ a b, f (a.union b) = (f a || f b)) →
          f emptyCaps = false →
          (∀ cc p2, cc.handlesAllOff p2 = true → f p2 = true → f cc = true) →
          f (famUnion qfs) = true →
          ∃ x ∈ (greedyAccumulate l emptyCaps).map Prod.fst,
            f (famCaps qfs x) = true := by
      intro f hf hempty hmono hful
      have h1 : f (capUnion (greedyAccumulate l emptyCaps)) = true := by
        rw [hcap]
        exact hful
      obtain ⟨p, hpmem, hprole⟩ := capUnion_role f hf hempty _ h1
      obtain ⟨cc, hcl, hsub⟩ := greedy_mem l emptyCaps p hpmem
      obtain ⟨hlt, hcc⟩ := mem_scored qfs (p.1, cc) (hperm.mem_iff.mp hcl)
      refine ⟨p.1, List.mem_map_of_mem Prod.fst hpmem, ?_⟩
      rw [← hcc]
      exact hmono cc p.2 hsub hprole
    refine ⟨(greedyAccumulate l emptyCaps).map Prod.fst, ⟨?_, ?_⟩, ⟨?_, ?_, ?_⟩,
      by rw [List.length_map]⟩
    · have hnodupl : (l.map Prod.fst).Nodup :=
        ((hperm.map Prod.fst).nodup_iff).mpr (scored_map_fst_nodup qfs)
      exact hnodupl.sublist (greedy_idx_sublist l emptyCaps)
    · intro x hx
      obtain ⟨p, hpmem, hpx⟩ := List.mem_map.mp hx
      obtain ⟨cc, hcl, hsub⟩ := greedy_mem l emptyCaps p hpmem
      have hlt := (mem_scored qfs (p.1, cc) (hperm.mem_iff.mp hcl)).1
      rw [← hpx]
      exact hlt
    · exact hrole_of (fun c => c.handlesGraphics) (fun a b => rfl) rfl
        (caps_role_mono_graphics) hroles.1
    · exact hrole_of (fun c => c.handlesPresent) (fun a b => rfl) rfl
        (caps_role_mono_present) hroles.2.1
    · exact hrole_of (fun c => c.handlesCompute) (fun a b => rfl) rfl
        (caps_role_mono_compute) hroles.2.2

/-- A single queue family covering all three roles. -/
def qfsW4 : List QueueFamilyProperties := [⟨true, true, true⟩]

/-- Witness for C4: on a concrete covering input, the greedy assignment is no
larger than the covering singleton subset. -/
theorem claim4_witness :
    (greedyAccumulate (sortQueueFamilies (scoredQueueFamilies qfsW4)) emptyCaps).length ≤
      [0].length :=
  (claim4_greedy_minimal qfsW4 _ ⟨by decide, by decide⟩ (by decide)).1
    [0] ⟨by decide, by decide⟩ ⟨⟨0, by decide, by decide⟩, ⟨0, by decide, by decide⟩,
      ⟨0, by decide, by decide⟩⟩

/-- A two-family input whose families have equal sort scores: family 0 is
graphics-only, family 1 is compute-only (both score 1). -/
def qfs6 : List QueueFamilyProperties :=
  [⟨true, false, false⟩, ⟨false, true, false⟩]

/-- C6: the source sorts with `std::sort`, whose result on tied comparator
values is not specified: on `qfs6` both the enumeration order and its
reversal satisfy the `std::sort` contract, and the two orders give the
negotiator different outputs, so the claimed stable tie-breaking (and with it
the claimed determinism of the assignment) is not guaranteed by the code. -/
theorem claim6_sort_unstable :
    (capabilitiesOf ⟨true, false, false⟩).score =
      (capabilitiesOf ⟨false, true, false⟩).score ∧
    IsSortOf (scoredQueueFamilies qfs6)
      [(0, capabilitiesOf ⟨true, false, false⟩),
       (1, capabilitiesOf ⟨false, true, false⟩)] ∧
    IsSortOf (scoredQueueFamilies qfs6)
      [(1, capabilitiesOf ⟨false, true, false⟩),
       (0, capabilitiesOf ⟨true, false, false⟩)] ∧
    greedyAccumulate
        [(0, capabilitiesOf ⟨true, false, false⟩),
         (1, capabilitiesOf ⟨false, true, false⟩)] emptyCaps ≠
      greedyAccumulate
        [(1, capabilitiesOf ⟨false, true, false⟩),
         (0, capabilitiesOf ⟨true, false, false⟩)] emptyCaps := by
  refine ⟨by decide, ⟨by decide, by decide⟩, ⟨by decide, by decide⟩, by decide⟩

/-! ### List helpers for the pipeline model -/

theorem getD_set_self {α : Type} :
    ∀ (l : List α) (i : Nat) (a d : α), i < l.length → (l.set i a).getD i d = a
  | [], i, a, d, h => absurd h (by simp)
  | x :: t, 0, a, d, _ => rfl
  | x :: t, i + 1, a, d, h => getD_set_self t i a d (by simpa using h)

theorem map_false_replicate :
    ∀ l : List Bool, l.map (fun _ => false) = List.replicate l.length false
  | [] => rfl
  | x :: t => by
    rw [List.map_cons, map_false_replicate t]
    rfl

/-- C7: for a built pipeline and an in-range image index, `render` re-records
the command buffer exactly when its valid-bit is clear (setting the bit on
recording and leaving the state untouched otherwise), submits with the given
wait semaphore, returns that image's render-finished semaphore, and a second
`render` on the resulting state changes nothing — so two consecutive calls
perform exactly one recording. -/
theorem claim7_render (s : PipelineState) (i : Nat) (w w' : Nat)
    (hinv : lenInv s) (hi : i < s.commandBuffers.length) :
    ((s.commandBuffersValid.getD i false = false →
        ((PipelineState.render s i w).1.commandBuffers.getD i ⟨0, 0⟩).recordCount =
          (s.commandBuffers.getD i ⟨0, 0⟩).recordCount + 1 ∧
        (PipelineState.render s i w).1.commandBuffersValid.getD i false = true) ∧
      (s.commandBuffersValid.getD i false = true →
        (PipelineState.render s i w).1 = s)) ∧
    (PipelineState.render s i w).2.1.waitSemaphore = w ∧
    (PipelineState.render s i w).2.2 = s.renderFinishedSemaphores.getD i 0 ∧
    (PipelineState.render (PipelineState.render s i w).1 i w').1 =
      (PipelineState.render s i w).1 := by
  have hival : i < s.commandBuffersValid.length := by
    rw [hinv.1]
    exact hi
  have hrw : (PipelineState.render s i w).1 = PipelineState.validateCommandBuffer s i := rfl
  have hrw2 : (PipelineState.render s i w).2.2 =
      (PipelineState.validateCommandBuffer s i).renderFinishedSemaphores.getD i 0 := rfl
  by_cases hv : s.commandBuffersValid.getD i false = true
  · have hval : PipelineState.validateCommandBuffer s i = s := by
      rw [PipelineState.validateCommandBuffer, if_pos hv]
    have hrs : (PipelineState.render s i w).1 = s := hrw.trans hval
    refine ⟨⟨?_, fun _ => hrs⟩, rfl, ?_, ?_⟩
    · intro hfalse
      rw [hv] at hfalse
      cases hfalse
    · rw [hrw2, hval]
    · rw [hrs]
      have hrw' : (PipelineState.render s i w').1 = PipelineState.validateCommandBuffer s i :=
        rfl
      exact hrw'.trans hval
  · have hval : PipelineState.validateCommandBuffer s i =
        { s with
            commandBuffers := s.commandBuffers.set i
              ⟨(s.commandBuffers.getD i ⟨0, 0⟩).handle,
               (s.commandBuffers.getD i ⟨0, 0⟩).recordCount + 1⟩,
            commandBuffersValid := s.commandBuffersValid.set i true } := by
      rw [PipelineState.validateCommandBuffer, if_neg hv]
    have hrs : (PipelineState.render s i w).1 =
        { s with
            commandBuffers := s.commandBuffers.set i
              ⟨(s.commandBuffers.getD i ⟨0, 0⟩).handle,
               (s.commandBuffers.getD i ⟨0, 0⟩).recordCount + 1⟩,
            commandBuffersValid := s.commandBuffersValid.set i true } := hrw.trans hval
    have hvalid1 : (PipelineState.render s i w).1.commandBuffersValid.getD i false = true := by
      rw [hrs]
      exact getD_set_self _ i true false hival
    refine ⟨⟨?_, ?_⟩, rfl, ?_, ?_⟩
    · intro _
      refine ⟨?_, hvalid1⟩
      rw [hrs]
      exact congrArg CommandBuffer.recordCount (getD_set_self _ i _ ⟨0, 0⟩ hi)
    · intro htrue
      exact absurd htrue hv
    · rw [hrw2, hval]
    · have hrw' : (PipelineState.render (PipelineState.render s i w).1 i w').1 =
          PipelineState.validateCommandBuffer (PipelineState.render s i w).1 i := rfl
      rw [hrw', PipelineState.validateCommandBuffer, if_pos hvalid1]

/-- The all-empty pipeline state. -/
def emptyPipelineState : PipelineState := ⟨[], [], [], [], [], [], none, 0⟩

/-- A small built pipeline state: one image, recorded no times, valid-bit
clear. -/
def builtPipelineState : PipelineState :=
  ⟨[0, 1], [0, 1], [2], [⟨3, 0⟩], [false], [4], some ⟨7, ⟨8, 9⟩, 2⟩, 5⟩

/-- Witness for C7 at a concrete built state with the valid-bit clear. -/
theorem claim7_witness :
    (PipelineState.render builtPipelineState 0 11).2.1.waitSemaphore = 11 :=
  (claim7_render builtPipelineState 0 11 12 ⟨rfl, rfl⟩ (by decide)).2.1

/-- C8: `buildForSwapchainChange` leaves shader modules and stages unchanged,
always clears every command-buffer valid-bit and rebuilds the pipeline-state
object against the new render pass and extent, keeps the vertex buffers,
command buffers and semaphores exactly when the requested image count equals
the previously built count, and otherwise replaces all three with freshly
allocated ones of the new count. -/
theorem claim8_swapchainChange (s : PipelineState) (rp : Nat) (ext : Extent2D)
    (n : Nat) (hinv : lenInv s) :
    (PipelineState.buildForSwapchainChange s rp ext n).shaderModules = s.shaderModules ∧
    (PipelineState.buildForSwapchainChange s rp ext n).shaderStages = s.shaderStages ∧
    (PipelineState.buildForSwapchainChange s rp ext n).commandBuffersValid =
      List.replicate n false ∧
    (PipelineState.buildForSwapchainChange s rp ext n).pso =
      some ⟨rp, ext, s.shaderStages.length⟩ ∧
    (n = s.commandBuffers.length →
      (PipelineState.buildForSwapchainChange s rp ext n).vertexBuffers = s.vertexBuffers ∧
      (PipelineState.buildForSwapchainChange s rp ext n).commandBuffers = s.commandBuffers ∧
      (PipelineState.buildForSwapchainChange s rp ext n).renderFinishedSemaphores =
        s.renderFinishedSemaphores) ∧
    (n ≠ s.commandBuffers.length →
      (PipelineState.buildForSwapchainChange s rp ext n).vertexBuffers.length = n ∧
      (PipelineState.buildForSwapchainChange s rp ext n).commandBuffers.length = n ∧
      (PipelineState.buildForSwapchainChange s rp ext n).renderFinishedSemaphores.length =
        n ∧
      (∀ h ∈ (PipelineState.buildForSwapchainChange s rp ext n).vertexBuffers,
        s.nextHandle ≤ h) ∧
      (∀ cb ∈ (PipelineState.buildForSwapchainChange s rp ext n).commandBuffers,
        s.nextHandle ≤ cb.handle) ∧
      (∀ h ∈ (PipelineState.buildForSwapchainChange s rp ext n).renderFinishedSemaphores,
        s.nextHandle ≤ h)) := by
  by_cases hne : n ≠ s.commandBuffers.length
  · have hchange :
        PipelineState.buildForSwapchainChange s rp ext n =
          { shaderModules := s.shaderModules,
            shaderStages := s.shaderStages,
            vertexBuffers := (List.range n).map (fun k => s.nextHandle + k),
            commandBuffers :=
              (List.range n).map (fun k => ⟨s.nextHandle + n + k, 0⟩),
            commandBuffersValid :=
              (([] : List Bool).take n ++ List.replicate (n - 0) false).map
                (fun _ => false) |>.map (fun _ => false),
            renderFinishedSemaphores :=
              (List.range n).map (fun k => s.nextHandle + n + n + k),
            pso := some ⟨rp, ext, s.shaderStages.length⟩,
            nextHandle := s.nextHandle + n + n + n } := by
      rw [PipelineState.buildForSwapchainChange]
      rw [if_pos hne]
      rfl
    rw [hchange]
    refine ⟨rfl, rfl, ?_, rfl, fun h => absurd h hne, fun _ => ?_⟩
    · show ((([] : List Bool).take n ++ List.replicate (n - 0) false).map
        (fun _ => false) |>.map (fun _ => false)) = List.replicate n false
      rw [map_false_replicate, map_false_replicate]
      simp
    · refine ⟨by simp, by simp, by simp, ?_, ?_, ?_⟩
      · intro h hh
        simp only [List.mem_map, List.mem_range] at hh
        obtain ⟨k, hk, hkh⟩ := hh
        omega
      · intro cb hcb
        simp only [List.mem_map, List.mem_range] at hcb
        obtain ⟨k, hk, hkcb⟩ := hcb
        rw [← hkcb]
        show s.nextHandle ≤ s.nextHandle + n + k
        omega
      · intro h hh
        simp only [List.mem_map, List.mem_range] at hh
        obtain ⟨k, hk, hkh⟩ := hh
        omega
  · have heq : n = s.commandBuffers.length := by
      by_contra hc
      exact hne hc
    have hsame :
        PipelineState.buildForSwapchainChange s rp ext n =
          { shaderModules := s.shaderModules,
            shaderStages := s.shaderStages,
            vertexBuffers := s.vertexBuffers,
            commandBuffers := s.commandBuffers,
            commandBuffersValid := s.commandBuffersValid.map (fun _ => false),
            renderFinishedSemaphores := s.renderFinishedSemaphores,
            pso := some ⟨rp, ext, s.shaderStages.length⟩,
            nextHandle := s.nextHandle } := by
      rw [PipelineState.buildForSwapchainChange]
      rw [if_neg hne]
      rfl
    rw [hsame]
    refine ⟨rfl, rfl, ?_, rfl, fun _ => ⟨rfl, rfl, rfl⟩, fun h => absurd heq h⟩
    show s.commandBuffersValid.map (fun _ => false) = List.replicate n false
    rw [map_false_replicate, hinv.1, heq]

/-- Witness for C8: on the concrete built state, growing the image count from
1 to 2 clears the valid-bits to a fresh length-2 vector. -/
theorem claim8_witness :
    (PipelineState.buildForSwapchainChange builtPipelineState 20 ⟨30, 40⟩
      2).commandBuffersValid = List.replicate 2 false :=
  (claim8_swapchainChange builtPipelineState 20 ⟨30, 40⟩ 2 ⟨rfl, rfl⟩).2.2.1

/-- C10: every build, teardown and invalidate operation preserves the
parallel sizing of the valid-bit vector, the command-buffer vector and the
semaphore vector, and under that invariant an image index below the built
count is in bounds for all three containers accessed (unguarded) by `render`
and `validateCommandBuffer`. -/
theorem claim10_parallel_lengths (s : PipelineState) (rp : Nat) (ext : Extent2D)
    (n i w : Nat) :
    lenInv (PipelineState.buildForDeviceChange s rp ext n) ∧
    lenInv (PipelineState.teardownForDeviceChange s) ∧
    (lenInv s → lenInv (PipelineState.buildForSwapchainChange s rp ext n)) ∧
    (lenInv s → lenInv (PipelineState.teardownForSwapchainChange s)) ∧
    (lenInv s → lenInv (PipelineState.invalidateCommandBuffers s)) ∧
    (lenInv s → lenInv (PipelineState.validateCommandBuffer s i)) ∧
    (lenInv s → lenInv (PipelineState.render s i w).1) ∧
    (lenInv s → i < s.commandBuffers.length →
      i < s.commandBuffersValid.length ∧ i < s.renderFinishedSemaphores.length) := by
  have hvalidate : ∀ t : PipelineState, lenInv t →
      lenInv (PipelineState.validateCommandBuffer t i) := by
    intro t ht
    rw [PipelineState.validateCommandBuffer]
    by_cases hv : t.commandBuffersValid.getD i false = true
    · rw [if_pos hv]
      exact ht
    · rw [if_neg hv]
      constructor
      · show (t.commandBuffersValid.set i true).length = (t.commandBuffers.set i _).length
        rw [List.length_set, List.length_set]
        exact ht.1
      · show t.renderFinishedSemaphores.length = (t.commandBuffers.set i _).length
        rw [List.length_set]
        exact ht.2
  refine ⟨?_, ⟨rfl, rfl⟩, ?_, ?_, ?_, hvalidate s, ?_, ?_⟩
  · simp only [PipelineState.buildForDeviceChange, PipelineState.buildPipeline,
      PipelineState.buildSemaphores, PipelineState.buildCommandBuffers,
      PipelineState.invalidateCommandBuffers, PipelineState.buildVertexBuffers,
      PipelineState.buildShaders, lenInv, List.length_map, List.length_append,
      List.length_take, List.length_replicate, List.length_range, inf_eq_min]
    exact ⟨by omega, trivial⟩
  · intro ht
    rw [PipelineState.buildForSwapchainChange]
    by_cases hne : n ≠ s.commandBuffers.length
    · rw [if_pos hne]
      simp only [PipelineState.buildPipeline, PipelineState.buildSemaphores,
        PipelineState.buildCommandBuffers, PipelineState.invalidateCommandBuffers,
        PipelineState.buildVertexBuffers, PipelineState.teardownVertexBuffers,
        PipelineState.teardownCommandBuffers, PipelineState.teardownSemaphores,
        lenInv, List.length_map, List.length_append, List.length_take,
        List.length_replicate, List.length_range, List.length_nil, inf_eq_min]
      exact ⟨by omega, trivial⟩
    · rw [if_neg hne]
      constructor
      · show (s.commandBuffersValid.map (fun _ => false)).length = s.commandBuffers.length
        rw [List.length_map]
        exact ht.1
      · exact ht.2
  · intro ht
    exact ht
  · intro ht
    constructor
    · show (s.commandBuffersValid.map (fun _ => false)).length = s.commandBuffers.length
      rw [List.length_map]
      exact ht.1
    · exact ht.2
  · intro ht
    exact hvalidate s ht
  · intro ht hilt
    constructor
    · rw [ht.1]
      exact hilt
    · rw [ht.2]
      exact hilt

/-- Witness for C10: the in-bounds conjunct instantiated on the concrete
built state. -/
theorem claim10_witness :
    (0 : Nat) < builtPipelineState.commandBuffersValid.length :=
  ((claim10_parallel_lengths builtPipelineState 1 ⟨2, 3⟩ 1 0 5).2.2.2.2.2.2.2
    ⟨rfl, rfl⟩ (by decide)).1

end TTauriProof
